import Mathlib

/-!
Verification development for the number-guessing game (`src/scripts.js`).

The script is embedded shallowly:

* `Math.random()` is modelled as a stream `rng : ℕ → ℕ` of numerators
  together with a cursor `pos`; call `n` of the program reads the value
  `rng (pos + n) / 2 ^ 53`, which is exactly the shape of the doubles
  `Math.random` produces.  The hypothesis `validRng rng` states that every
  numerator is below `2 ^ 53`, i.e. every value lies in `[0, 1)`.  With
  this representation `Math.floor(r * m)` for a natural `m` is exactly the
  natural-number division `k * m / 2 ^ 53` of the numerator `k`.
* `generateRandomNumber(min, max)`, i.e.
  `Math.floor(Math.random() * (max - min + 1)) + min`, becomes
  `k * (max - min + 1) / 2 ^ 53 + min`.
* the `while (options.size < 5)` loop of `generateMCQOptions` is given
  explicit fuel (one unit per draw); exhausting the fuel yields `none`,
  modelling the (probability-zero) non-terminating run of the script.
* mutable globals (`secretNumber`, `attempts`, `gameOver`, the log table,
  the displayed cards, the finish-time display) become fields of
  `GameState`; `checkGuess` and `initializeGame` are state transformers.
* `parseInt` (called with no radix) on the text path is modelled by
  `parseIntJS`, following the ECMAScript algorithm: skip leading
  StrWhiteSpace, take an optional sign, switch to hexadecimal when the
  remainder starts with `0x`/`0X`, read the longest run of radix digits,
  and return `NaN` (here `none`) when that run is empty.  The one
  abstraction: `parseInt` finally rounds the mathematical value to a
  double while the embedding keeps the exact integer; the rounding is the
  identity on magnitudes up to `2 ^ 53` and maps larger magnitudes to
  larger-than-`2 ^ 53` doubles, so it never moves a value into or out of
  the game's `[1, 50]` gate and the accept/reject behaviour (and every
  accepted value) coincides with the program on all inputs.
-/

/-- Outcome of one guess, as displayed by `resultText` in the script. -/
inductive Outcome where
  | Correct
  | TooHigh
  | TooLow
deriving DecidableEq, Repr

/-- One row of the log table, as produced by `addLogEntry(attemptNum, guessVal, resultText)`
(plus the time stamp written in the fourth cell). -/
structure LogEntry where
  attemptNum : ℕ
  guessVal : ℤ
  outcome : Outcome
  loggedAt : ℕ
deriving DecidableEq, Repr

/-- The mutable globals of `scripts.js` together with the observable parts of
the DOM that carry game state: the hidden number, attempt counter, game-over
flag, start time, the finish time shown by `gameEndDisplay` (`none` while it
still shows the waiting placeholder), the rows of the log table (most recent
first) and the values of the currently displayed option cards. -/
structure GameState where
  secretNumber : ℤ
  attempts : ℕ
  gameOver : Bool
  gameStartedTime : ℕ
  gameEndTime : Option ℕ
  log : List LogEntry
  options : List ℤ
deriving DecidableEq, Repr

/-- Denominator of the values produced by `Math.random`: each one is
`k / 2 ^ 53` for some natural `k < 2 ^ 53`. -/
def RAND_SIZE : ℕ := 2 ^ 53

/-- The random source delivers values in `[0, 1)`, as `Math.random` does. -/
def validRng (rng : ℕ → ℕ) : Prop :=
  ∀ n, rng n < RAND_SIZE

/-- Function `generateRandomNumber(min, max)` from the script:
`Math.floor(Math.random() * (max - min + 1)) + min`, applied to one value
`k / 2 ^ 53` of the random stream. -/
def generateRandomNumber (min max : ℤ) (k : ℕ) : ℤ :=
  ((k * (max - min + 1).toNat / RAND_SIZE : ℕ) : ℤ) + min

/-- JavaScript `Set.add`: insertion-ordered, duplicates discarded. -/
def jsSetAdd (s : List ℤ) (x : ℤ) : List ℤ :=
  if x ∈ s then s else s ++ [x]

/-- Constant `NUMBER_OF_MCQ_OPTIONS` from the script. -/
def NUMBER_OF_MCQ_OPTIONS : ℕ := 5

/-- The `while (options.size < NUMBER_OF_MCQ_OPTIONS)` loop of
`generateMCQOptions`: keep drawing `generateRandomNumber(1, 50)` and adding it
to the set.  One unit of fuel is spent per draw; `none` models the run in
which the loop never fills the set. -/
def fillOptions (rng : ℕ → ℕ) : ℕ → ℕ → List ℤ → Option (List ℤ × ℕ)
  | pos, fuel, s =>
    if s.length < NUMBER_OF_MCQ_OPTIONS then
      match fuel with
      | 0 => none
      | fuel' + 1 =>
        fillOptions rng (pos + 1) fuel' (jsSetAdd s (generateRandomNumber 1 50 (rng pos)))
    else
      some (s, pos)

/-- Simultaneous swap `[a[i], a[j]] = [a[j], a[i]]` on a list. -/
def listSwap {α : Type} [Inhabited α] (a : List α) (i j : ℕ) : List α :=
  (a.set i (a.getD j default)).set j (a.getD i default)

/-- The shuffle loop of `generateMCQOptions`:
`for (let i = len - 1; i > 0; i--) { j = Math.floor(Math.random() * (i + 1)); swap i j }`.
The argument of the recursion is the current loop index `i`. -/
def fyLoop (rng : ℕ → ℕ) : ℕ → List ℤ → ℕ → List ℤ × ℕ
  | pos, a, 0 => (a, pos)
  | pos, a, i + 1 =>
    fyLoop rng (pos + 1) (listSwap a (i + 1) (rng pos * (i + 2) / RAND_SIZE)) i

/-- Function `generateMCQOptions()` from the script: start the set at the
secret number,
fill it to five members, convert to an array and shuffle. -/
def generateMCQOptions (rng : ℕ → ℕ) (pos fuel : ℕ) (secret : ℤ) :
    Option (List ℤ × ℕ) :=
  match fillOptions rng pos fuel [secret] with
  | none => none
  | some (s, pos') => some (fyLoop rng pos' s (s.length - 1))

/-- Value of a run of decimal digit characters, most significant first. -/
def digitsVal (cs : List Char) : ℕ :=
  cs.foldl (fun acc c => acc * 10 + (c.toNat - 48)) 0

/-- Characters `parseInt` skips at the front of its argument: the ECMAScript
StrWhiteSpace set, i.e. WhiteSpace (TAB, VT, FF, SP, NBSP, ZWNBSP and the
Unicode space separators) together with the LineTerminators (LF, CR, LS,
PS). -/
def isJsWhitespace (c : Char) : Bool :=
  c.toNat = 0x9 || c.toNat = 0xA || c.toNat = 0xB || c.toNat = 0xC ||
  c.toNat = 0xD || c.toNat = 0x20 || c.toNat = 0xA0 || c.toNat = 0x1680 ||
  (0x2000 ≤ c.toNat && c.toNat ≤ 0x200A) || c.toNat = 0x2028 ||
  c.toNat = 0x2029 || c.toNat = 0x202F || c.toNat = 0x205F ||
  c.toNat = 0x3000 || c.toNat = 0xFEFF

/-- Hexadecimal digits, as accepted after a `0x`/`0X` prefix. -/
def isHexDigitJS (c : Char) : Bool :=
  c.isDigit || (97 ≤ c.toNat && c.toNat ≤ 102) || (65 ≤ c.toNat && c.toNat ≤ 70)

/-- Value of one hexadecimal digit character. -/
def hexDigitVal (c : Char) : ℕ :=
  if c.isDigit then c.toNat - 48
  else if 97 ≤ c.toNat then c.toNat - 87
  else c.toNat - 55

/-- Value of a run of hexadecimal digit characters, most significant first. -/
def hexVal (cs : List Char) : ℕ :=
  cs.foldl (fun acc c => acc * 16 + hexDigitVal c) 0

/-- Sign step of `parseInt`: a leading `-` negates the result. -/
def parseSign (ws : List Char) : ℤ :=
  match ws with
  | c :: _ => if c = '-' then -1 else 1
  | [] => 1

/-- Step "if the first code unit is + or -, remove it" of `parseInt`. -/
def parseBody (ws : List Char) : List Char :=
  match ws with
  | c :: rest => if c = '-' ∨ c = '+' then rest else ws
  | [] => []

/-- Radix selection and digit-run reading of `parseInt`: strip a `0x`/`0X`
prefix (radix 16), else read decimal; `none` when the digit run is empty. -/
def parseRun (sign : ℤ) (body : List Char) : Option ℤ :=
  match body with
  | c0 :: c1 :: rest =>
    if c0 = '0' ∧ (c1 = 'x' ∨ c1 = 'X') then
      let ds := rest.takeWhile isHexDigitJS
      if ds.isEmpty then none else some (sign * (hexVal ds : ℤ))
    else
      let ds := (c0 :: c1 :: rest).takeWhile Char.isDigit
      if ds.isEmpty then none else some (sign * (digitsVal ds : ℤ))
  | _ =>
    let ds := body.takeWhile Char.isDigit
    if ds.isEmpty then none else some (sign * (digitsVal ds : ℤ))

/-- JavaScript `parseInt(s)` with the radix argument undefined, following the
ECMAScript algorithm: drop leading StrWhiteSpace, consume an optional sign,
strip a `0x`/`0X` prefix (switching to radix 16), read the longest run of
radix digits — `NaN` (here `none`) when that run is empty — and return the
signed value of that run.  `parseInt` itself returns this mathematical value
rounded to the nearest double; the embedding keeps the exact integer, which
agrees with the double for magnitudes up to `2 ^ 53` and in particular on the
whole accepted range `[1, 50]` (see the module header). -/
def parseIntJS (s : String) : Option ℤ :=
  let ws := s.data.dropWhile isJsWhitespace
  parseRun (parseSign ws) (parseBody ws)

/-- Lines 130–146 of `checkGuess`: resolve the guessed value.  A card click
passes its value through unvalidated; the text path parses the input field and
rejects values that are `NaN` or outside `[1, 50]`.  `none` is the rejected
(alert) case. -/
def resolveGuess (guessValue : Option ℤ) (inputField : String) : Option ℤ :=
  match guessValue with
  | some v => some v
  | none =>
    match parseIntJS inputField with
    | none => none
    | some g => if g < 1 ∨ 50 < g then none else some g

/-- Function `checkGuess(guessValue)` from the script.  `now` is the current time (used
for the log entry and, on a win, the finish display), `guessValue` is the card
value (`none` on the button/Enter path) and `inputField` the content of the
text input.  The result is `none` exactly when the option-regeneration loop
runs out of fuel; otherwise it is the new state and random-stream cursor. -/
def checkGuess (rng : ℕ → ℕ) (fuel now : ℕ) (st : GameState) (pos : ℕ)
    (guessValue : Option ℤ) (inputField : String) : Option (GameState × ℕ) :=
  if st.gameOver then some (st, pos)
  else
    match resolveGuess guessValue inputField with
    | none => some (st, pos)
    | some guess =>
      let attempts' := st.attempts + 1
      if guess = st.secretNumber then
        some ({ st with
                  attempts := attempts'
                  gameOver := true
                  gameEndTime := some now
                  log := ⟨attempts', guess, Outcome.Correct, now⟩ :: st.log }, pos)
      else
        let outcome := if st.secretNumber < guess then Outcome.TooHigh else Outcome.TooLow
        match generateMCQOptions rng pos fuel st.secretNumber with
        | none => none
        | some (opts, pos') =>
          some ({ st with
                    attempts := attempts'
                    options := opts
                    log := ⟨attempts', guess, outcome, now⟩ :: st.log }, pos')

/-- Function `initializeGame()` from the script: draw a fresh secret, zero the counter,
clear the flags, stamp the start time, reset the finish display to the waiting
placeholder, empty the log table and deal the initial cards.  The prior state
is an argument only to record that every field is rebuilt from scratch. -/
def initializeGame (rng : ℕ → ℕ) (fuel now : ℕ) (_prior : GameState) (pos : ℕ) :
    Option (GameState × ℕ) :=
  let secret := generateRandomNumber 1 50 (rng pos)
  match generateMCQOptions rng (pos + 1) fuel secret with
  | none => none
  | some (opts, pos') =>
    some ({ secretNumber := secret
            attempts := 0
            gameOver := false
            gameStartedTime := now
            gameEndTime := none
            log := []
            options := opts }, pos')

/-- One external guess event: the card value (if a card was clicked), the text
field content, and the time of the event. -/
structure GuessEvent where
  card : Option ℤ
  text : String
  now : ℕ

/-- Run a sequence of guess events through `checkGuess`. -/
def stepMany (rng : ℕ → ℕ) (fuel : ℕ) : GameState → ℕ → List GuessEvent →
    Option (GameState × ℕ)
  | st, pos, [] => some (st, pos)
  | st, pos, e :: es =>
    match checkGuess rng fuel e.now st pos e.card e.text with
    | none => none
    | some (st', pos') => stepMany rng fuel st' pos' es

/-- Modelled from the spec: the Fisher–Yates shuffle as §4.3 states it — "for
index i from last down to 1, swap with a uniformly chosen index in [0,i]" —
with the chosen index at step `i` given by `ch i`.  Used to compare the
script's shuffle loop against the specified algorithm. -/
def fisherYatesSpec {α : Type} [Inhabited α] (ch : ℕ → ℕ) : List α → ℕ → List α
  | a, 0 => a
  | a, i + 1 => fisherYatesSpec ch (listSwap a (i + 1) (ch (i + 1))) i

/-- A choice vector for a five-element Fisher–Yates shuffle: the swap targets
for indices 4, 3, 2, 1, each uniformly drawn from `[0, i]`. -/
abbrev FY5Choices : Type := Fin 5 × Fin 4 × Fin 3 × Fin 2

/-- Read a choice vector as a choice function for `fisherYatesSpec`. -/
def choiceFun (c : FY5Choices) : ℕ → ℕ
  | 4 => (c.1 : ℕ)
  | 3 => (c.2.1 : ℕ)
  | 2 => (c.2.2.1 : ℕ)
  | 1 => (c.2.2.2 : ℕ)
  | _ => 0

/-- The five-element Fisher–Yates shuffle determined by a choice vector. -/
def applyFY5 {α : Type} [Inhabited α] (a : List α) (c : FY5Choices) : List α :=
  fisherYatesSpec (choiceFun c) a 4

/-- The attempt numbers the spec requires of an `n`-entry log, most recent
first: `n, n-1, …, 1`. -/
def countdown : ℕ → List ℕ
  | 0 => []
  | n + 1 => (n + 1) :: countdown n

/-! ### Basic facts about the random primitives -/

theorem RAND_SIZE_pos : 0 < RAND_SIZE := by
  simp [RAND_SIZE]

/-- A draw of `generateRandomNumber(1, 50)` lies in `[1, 50]`. -/
theorem generateRandomNumber_one_fifty_mem {k : ℕ} (hk : k < RAND_SIZE) :
    1 ≤ generateRandomNumber 1 50 k ∧ generateRandomNumber 1 50 k ≤ 50 := by
  have h50 : ((50 : ℤ) - 1 + 1).toNat = 50 := by decide
  have hlt : k * 50 / RAND_SIZE < 50 := by
    rw [Nat.div_lt_iff_lt_mul RAND_SIZE_pos]
    calc k * 50 < RAND_SIZE * 50 := (Nat.mul_lt_mul_right (by norm_num)).mpr hk
      _ = 50 * RAND_SIZE := Nat.mul_comm ..
  unfold generateRandomNumber
  rw [h50]
  have h49 : k * 50 / RAND_SIZE ≤ 49 := Nat.lt_succ_iff.mp hlt
  generalize k * 50 / RAND_SIZE = n at h49 ⊢
  omega

/-! ### The swap operation -/

theorem listSwap_length {α : Type} [Inhabited α] (a : List α) (i j : ℕ) :
    (listSwap a i j).length = a.length := by
  simp [listSwap]

/-- Putting `x` at position `m` and moving the old occupant to the front is a
permutation of putting `x` at the front. -/
theorem getD_cons_set_perm {α : Type} [Inhabited α] :
    ∀ (t : List α) (m : ℕ), m < t.length →
      ∀ x : α, (t.getD m default :: t.set m x).Perm (x :: t)
  | y :: t, 0, _, x => by
    simpa using List.Perm.swap x y t
  | y :: t, m + 1, hm, x => by
    have hm' : m < t.length := by simpa using hm
    have h1 : (y :: t).getD (m + 1) default :: (y :: t).set (m + 1) x
        = t.getD m default :: y :: t.set m x := by simp
    rw [h1]
    exact (List.Perm.swap ..).trans
      (((getD_cons_set_perm t m hm' x).cons y).trans (List.Perm.swap ..))

/-- Swapping permutes the list when both indices are in bounds. -/
theorem listSwap_perm {α : Type} [Inhabited α] :
    ∀ (a : List α) (i j : ℕ), i < a.length → j < a.length →
      (listSwap a i j).Perm a
  | [], i, _, hi, _ => absurd hi (by simp)
  | x :: t, 0, 0, _, _ => by
    simp [listSwap]
  | x :: t, 0, j + 1, _, hj => by
    have hj' : j < t.length := by simpa using hj
    have : listSwap (x :: t) 0 (j + 1) = t.getD j default :: t.set j x := by
      simp [listSwap]
    rw [this]
    exact getD_cons_set_perm t j hj' x
  | x :: t, i + 1, 0, hi, _ => by
    have hi' : i < t.length := by simpa using hi
    have : listSwap (x :: t) (i + 1) 0 = t.getD i default :: t.set i x := by
      simp [listSwap]
    rw [this]
    exact getD_cons_set_perm t i hi' x
  | x :: t, i + 1, j + 1, hi, hj => by
    have hi' : i < t.length := by simpa using hi
    have hj' : j < t.length := by simpa using hj
    have : listSwap (x :: t) (i + 1) (j + 1) = x :: listSwap t i j := by
      simp [listSwap]
    rw [this]
    exact (listSwap_perm t i j hi' hj').cons x

/-! ### The Fisher–Yates loop -/

/-- The specified shuffle only permutes its input (choices in `[0, i]`,
index within bounds). -/
theorem fisherYatesSpec_perm {α : Type} [Inhabited α] (ch : ℕ → ℕ)
    (hch : ∀ k, ch k ≤ k) :
    ∀ (i : ℕ) (a : List α), i < a.length → (fisherYatesSpec ch a i).Perm a
  | 0, a, _ => List.Perm.refl a
  | i + 1, a, hi => by
    have hsw : i + 1 < (listSwap a (i + 1) (ch (i + 1))).length := by
      rw [listSwap_length]; exact hi
    have hch' : ch (i + 1) < a.length := lt_of_le_of_lt (hch (i + 1)) hi
    exact (fisherYatesSpec_perm ch hch i _ (Nat.lt_of_succ_lt hsw)).trans
      (listSwap_perm a (i + 1) (ch (i + 1)) hi hch')

theorem fisherYatesSpec_length {α : Type} [Inhabited α] (ch : ℕ → ℕ)
    (hch : ∀ k, ch k ≤ k) (i : ℕ) (a : List α) (hi : i < a.length) :
    (fisherYatesSpec ch a i).length = a.length :=
  (fisherYatesSpec_perm ch hch i a hi).length_eq

/-- The shuffle at bound `i` only reads choices at indices `1, …, i`. -/
theorem fisherYatesSpec_congr {α : Type} [Inhabited α] (ch ch' : ℕ → ℕ) :
    ∀ (i : ℕ) (a : List α), (∀ k, 1 ≤ k → k ≤ i → ch k = ch' k) →
      fisherYatesSpec ch a i = fisherYatesSpec ch' a i
  | 0, a, _ => rfl
  | i + 1, a, h => by
    unfold fisherYatesSpec
    rw [h (i + 1) (by omega) (by omega)]
    exact fisherYatesSpec_congr ch ch' i _ fun k h1 h2 => h k h1 (by omega)

/-- The choice function induced by the script's shuffle loop entered at index
`i` with the random cursor at `pos`. -/
def codeChoices (rng : ℕ → ℕ) (pos i : ℕ) : ℕ → ℕ :=
  fun k => rng (pos + i - k) * (k + 1) / RAND_SIZE

theorem codeChoices_le {rng : ℕ → ℕ} (h : validRng rng) (pos i k : ℕ) :
    codeChoices rng pos i k ≤ k := by
  unfold codeChoices
  have : rng (pos + i - k) * (k + 1) < (k + 1) * RAND_SIZE := by
    calc rng (pos + i - k) * (k + 1) < RAND_SIZE * (k + 1) :=
          (Nat.mul_lt_mul_right (by omega)).mpr (h (pos + i - k))
      _ = (k + 1) * RAND_SIZE := Nat.mul_comm ..
  have := (Nat.div_lt_iff_lt_mul RAND_SIZE_pos).mpr this
  omega

/-- Refinement: the script's shuffle loop is exactly the Fisher–Yates shuffle
of the specification, with the choice at index `k` equal to
`Math.floor(Math.random() * (k + 1))` for the corresponding stream value, and
it advances the random cursor by `i`. -/
theorem fyLoop_eq_fisherYatesSpec (rng : ℕ → ℕ) :
    ∀ (i pos : ℕ) (a : List ℤ),
      fyLoop rng pos a i = (fisherYatesSpec (codeChoices rng pos i) a i, pos + i)
  | 0, pos, a => by simp [fyLoop, fisherYatesSpec]
  | i + 1, pos, a => by
    have hfun : codeChoices rng (pos + 1) i = codeChoices rng pos (i + 1) := by
      funext k
      unfold codeChoices
      have h : pos + 1 + i - k = pos + (i + 1) - k := by omega
      rw [h]
    have hhead : codeChoices rng pos (i + 1) (i + 1) = rng pos * (i + 2) / RAND_SIZE := by
      unfold codeChoices
      have h : pos + (i + 1) - (i + 1) = pos := by omega
      rw [h]
    unfold fyLoop fisherYatesSpec
    rw [fyLoop_eq_fisherYatesSpec rng i (pos + 1), hfun, hhead]
    simp only [Prod.mk.injEq, true_and]
    omega

/-- The shuffle loop permutes the list it is given. -/
theorem fyLoop_fst_perm {rng : ℕ → ℕ} (hv : validRng rng) (pos : ℕ) (a : List ℤ)
    (i : ℕ) (hi : i < a.length) : ((fyLoop rng pos a i).1).Perm a := by
  rw [fyLoop_eq_fisherYatesSpec]
  exact fisherYatesSpec_perm _ (codeChoices_le hv pos i) i a hi

/-! ### Filling the option set -/

theorem jsSetAdd_length_le (s : List ℤ) (x : ℤ) :
    (jsSetAdd s x).length ≤ s.length + 1 := by
  unfold jsSetAdd
  split <;> simp

theorem jsSetAdd_nodup {s : List ℤ} (x : ℤ) (h : s.Nodup) :
    (jsSetAdd s x).Nodup := by
  unfold jsSetAdd
  split
  · exact h
  · next hx => simp [List.nodup_append, h, hx]

theorem mem_jsSetAdd_of_mem {s : List ℤ} {y : ℤ} (x : ℤ) (h : y ∈ s) :
    y ∈ jsSetAdd s x := by
  unfold jsSetAdd
  split <;> simp [h]

theorem mem_of_mem_jsSetAdd {s : List ℤ} {x y : ℤ} (h : y ∈ jsSetAdd s x) :
    y ∈ s ∨ y = x := by
  unfold jsSetAdd at h
  split at h
  · exact Or.inl h
  · simpa using h

/-- Invariants of the filling loop: a successful run ends with exactly five
members, stays duplicate-free, keeps everything it started with, and every new
member is a `generateRandomNumber(1, 50)` draw, hence in `[1, 50]`. -/
theorem fillOptions_spec {rng : ℕ → ℕ} (hv : validRng rng) :
    ∀ (fuel pos : ℕ) (s opts : List ℤ) (pos' : ℕ),
      s.length ≤ NUMBER_OF_MCQ_OPTIONS →
      fillOptions rng pos fuel s = some (opts, pos') →
      opts.length = NUMBER_OF_MCQ_OPTIONS ∧ (s.Nodup → opts.Nodup) ∧
        (∀ x ∈ s, x ∈ opts) ∧ (∀ x ∈ opts, x ∈ s ∨ (1 ≤ x ∧ x ≤ 50)) := by
  intro fuel
  induction fuel with
  | zero =>
    intro pos s opts pos' hle h
    unfold fillOptions at h
    split at h
    · exact absurd h (by simp)
    · next hfull =>
      simp only [Option.some.injEq, Prod.mk.injEq] at h
      obtain ⟨rfl, rfl⟩ := h
      exact ⟨by omega, fun h => h, fun x hx => hx, fun x hx => Or.inl hx⟩
  | succ fuel ih =>
    intro pos s opts pos' hle h
    unfold fillOptions at h
    split at h
    · next hlt =>
      set draw := generateRandomNumber 1 50 (rng pos) with hdraw
      have hdm := generateRandomNumber_one_fifty_mem (hv pos)
      have hle' : (jsSetAdd s draw).length ≤ NUMBER_OF_MCQ_OPTIONS := by
        have := jsSetAdd_length_le s draw
        omega
      obtain ⟨hlen, hnd, hmem, hnew⟩ := ih (pos + 1) (jsSetAdd s draw) opts pos' hle' h
      refine ⟨hlen, fun hs => hnd (jsSetAdd_nodup draw hs), ?_, ?_⟩
      · exact fun x hx => hmem x (mem_jsSetAdd_of_mem draw hx)
      · intro x hx
        rcases hnew x hx with hx' | hr
        · rcases mem_of_mem_jsSetAdd hx' with hx'' | rfl
          · exact Or.inl hx''
          · exact Or.inr ⟨hdm.1, hdm.2⟩
        · exact Or.inr hr
    · next hfull =>
      simp only [Option.some.injEq, Prod.mk.injEq] at h
      obtain ⟨rfl, rfl⟩ := h
      exact ⟨by omega, fun h => h, fun x hx => hx, fun x hx => Or.inl hx⟩

/-- A successfully generated option set has exactly five distinct members,
contains the secret, and (when the secret itself is in range) lies entirely in
`[1, 50]`. -/
theorem generateMCQOptions_spec {rng : ℕ → ℕ} (hv : validRng rng) {secret : ℤ}
    (h1 : 1 ≤ secret) (h50 : secret ≤ 50) {pos fuel : ℕ} {opts : List ℤ}
    {pos' : ℕ} (h : generateMCQOptions rng pos fuel secret = some (opts, pos')) :
    opts.length = NUMBER_OF_MCQ_OPTIONS ∧ opts.Nodup ∧ secret ∈ opts ∧
      ∀ x ∈ opts, 1 ≤ x ∧ x ≤ 50 := by
  unfold generateMCQOptions at h
  split at h
  · exact absurd h (by simp)
  · next s p1 heq =>
    simp only [Option.some.injEq] at h
    obtain ⟨hs5, hsnd, hsmem, hsrange⟩ :=
      fillOptions_spec hv fuel pos [secret] s p1 (by simp [NUMBER_OF_MCQ_OPTIONS]) heq
    have hperm : opts.Perm s := by
      have h4 : s.length - 1 < s.length := by
        have h5 : NUMBER_OF_MCQ_OPTIONS = 5 := rfl
        omega
      have hp := fyLoop_fst_perm hv p1 s (s.length - 1) h4
      rw [h] at hp
      exact hp
    refine ⟨hperm.length_eq.trans hs5, hperm.nodup_iff.mpr (hsnd (by simp)), ?_, ?_⟩
    · exact hperm.mem_iff.mpr (hsmem secret (by simp))
    · intro x hx
      rcases hsrange x (hperm.subset hx) with hx' | hr
      · simp only [List.mem_singleton] at hx'
        subst hx'
        exact ⟨h1, h50⟩
      · exact hr

/-! ### Case analysis of `checkGuess` -/

/-- Classification of a guess against the secret, as computed by the branch
at lines 154 and 181 of the script. -/
def outcomeOf (secret g : ℤ) : Outcome :=
  if g = secret then Outcome.Correct
  else if secret < g then Outcome.TooHigh
  else Outcome.TooLow

theorem checkGuess_of_gameOver {rng : ℕ → ℕ} {fuel now : ℕ} {st : GameState}
    {pos : ℕ} {gv : Option ℤ} {txt : String} (h : st.gameOver = true) :
    checkGuess rng fuel now st pos gv txt = some (st, pos) := by
  simp [checkGuess, h]

theorem checkGuess_of_rejected {rng : ℕ → ℕ} {fuel now : ℕ} {st : GameState}
    {pos : ℕ} {gv : Option ℤ} {txt : String} (h : st.gameOver = false)
    (hr : resolveGuess gv txt = none) :
    checkGuess rng fuel now st pos gv txt = some (st, pos) := by
  simp [checkGuess, h, hr]

theorem checkGuess_of_correct {rng : ℕ → ℕ} {fuel now : ℕ} {st : GameState}
    {pos : ℕ} {gv : Option ℤ} {txt : String} (h : st.gameOver = false)
    (hr : resolveGuess gv txt = some st.secretNumber) :
    checkGuess rng fuel now st pos gv txt =
      some ({ st with
                attempts := st.attempts + 1
                gameOver := true
                gameEndTime := some now
                log := ⟨st.attempts + 1, st.secretNumber, Outcome.Correct, now⟩ :: st.log },
            pos) := by
  simp [checkGuess, h, hr]

theorem checkGuess_of_incorrect {rng : ℕ → ℕ} {fuel now : ℕ} {st : GameState}
    {pos : ℕ} {gv : Option ℤ} {txt : String} {g : ℤ} (h : st.gameOver = false)
    (hr : resolveGuess gv txt = some g) (hne : g ≠ st.secretNumber) :
    checkGuess rng fuel now st pos gv txt =
      match generateMCQOptions rng pos fuel st.secretNumber with
      | none => none
      | some (opts, pos') =>
        some ({ st with
                  attempts := st.attempts + 1
                  options := opts
                  log := ⟨st.attempts + 1, g,
                          if st.secretNumber < g then Outcome.TooHigh else Outcome.TooLow,
                          now⟩ :: st.log },
              pos') := by
  simp [checkGuess, h, hr, hne]

/-- Every successful `checkGuess` call either leaves the state untouched
(game already over, or the guess was rejected) or is an accepted guess: the
attempt counter grows by one, the secret, start time and finish-or-options
bookkeeping follow the branch taken, and exactly one entry carrying the
classification of the guess is prepended to the log. -/
theorem checkGuess_cases {rng : ℕ → ℕ} {fuel now : ℕ} {st : GameState}
    {pos : ℕ} {gv : Option ℤ} {txt : String} {st' : GameState} {pos' : ℕ}
    (h : checkGuess rng fuel now st pos gv txt = some (st', pos')) :
    (st' = st ∧ pos' = pos ∧ (st.gameOver = true ∨ resolveGuess gv txt = none)) ∨
    (∃ g, st.gameOver = false ∧ resolveGuess gv txt = some g ∧
      st'.attempts = st.attempts + 1 ∧ st'.secretNumber = st.secretNumber ∧
      st'.gameStartedTime = st.gameStartedTime ∧
      st'.log = ⟨st.attempts + 1, g, outcomeOf st.secretNumber g, now⟩ :: st.log) := by
  unfold checkGuess at h
  split at h
  · next hov =>
    simp only [Option.some.injEq, Prod.mk.injEq] at h
    exact Or.inl ⟨h.1.symm, h.2.symm, Or.inl hov⟩
  · next hov =>
    have hov' : st.gameOver = false := by
      cases hgo : st.gameOver
      · rfl
      · exact absurd hgo hov
    split at h
    · next hr =>
      simp only [Option.some.injEq, Prod.mk.injEq] at h
      exact Or.inl ⟨h.1.symm, h.2.symm, Or.inr hr⟩
    · next g hr =>
      split at h
      · next heqs =>
        simp only [Option.some.injEq, Prod.mk.injEq] at h
        obtain ⟨hst, hpos⟩ := h
        rw [← hst]
        refine Or.inr ⟨g, hov', hr, rfl, rfl, rfl, ?_⟩
        simp [outcomeOf, heqs]
      · next hne =>
        cases hgen : generateMCQOptions rng pos fuel st.secretNumber with
        | none =>
          rw [hgen] at h
          exact absurd h (by simp)
        | some pr =>
          obtain ⟨opts, p2⟩ := pr
          rw [hgen] at h
          simp only [Option.some.injEq, Prod.mk.injEq] at h
          obtain ⟨hst, hpos⟩ := h
          rw [← hst]
          refine Or.inr ⟨g, hov', hr, rfl, rfl, rfl, ?_⟩
          simp [outcomeOf, hne]

/-! ### Run-level invariants -/

/-- The log is well-shaped: its attempt numbers read `attempts, …, 1`. -/
def logOk (st : GameState) : Prop :=
  st.log.map LogEntry.attemptNum = countdown st.attempts

theorem countdown_length : ∀ n, (countdown n).length = n
  | 0 => rfl
  | n + 1 => by simp [countdown, countdown_length n]

theorem checkGuess_preserves_logOk {rng : ℕ → ℕ} {fuel now : ℕ}
    {st : GameState} {pos : ℕ} {gv : Option ℤ} {txt : String}
    {st' : GameState} {pos' : ℕ}
    (h : checkGuess rng fuel now st pos gv txt = some (st', pos'))
    (hok : logOk st) : logOk st' := by
  rcases checkGuess_cases h with ⟨rfl, -, -⟩ | ⟨g, -, -, ha, -, -, hl⟩
  · exact hok
  · unfold logOk at hok ⊢
    rw [hl, ha, List.map_cons, hok]
    rfl

theorem checkGuess_preserves_secret {rng : ℕ → ℕ} {fuel now : ℕ}
    {st : GameState} {pos : ℕ} {gv : Option ℤ} {txt : String}
    {st' : GameState} {pos' : ℕ}
    (h : checkGuess rng fuel now st pos gv txt = some (st', pos')) :
    st'.secretNumber = st.secretNumber := by
  rcases checkGuess_cases h with ⟨rfl, -, -⟩ | ⟨g, -, -, -, hs, -, -⟩
  · rfl
  · exact hs

theorem stepMany_invariant {rng : ℕ → ℕ} {fuel : ℕ} :
    ∀ (events : List GuessEvent) (st : GameState) (pos : ℕ)
      (st' : GameState) (pos' : ℕ),
      stepMany rng fuel st pos events = some (st', pos') →
      (logOk st → logOk st') ∧ st'.secretNumber = st.secretNumber
  | [], st, pos, st', pos', h => by
    simp only [stepMany, Option.some.injEq, Prod.mk.injEq] at h
    obtain ⟨rfl, rfl⟩ := h
    exact ⟨fun h => h, rfl⟩
  | e :: es, st, pos, st', pos', h => by
    unfold stepMany at h
    split at h
    · exact absurd h (by simp)
    · next st₁ pos₁ hstep =>
      obtain ⟨hok, hsec⟩ := stepMany_invariant es st₁ pos₁ st' pos' h
      exact ⟨fun h0 => hok (checkGuess_preserves_logOk hstep h0),
        hsec.trans (checkGuess_preserves_secret hstep)⟩

/-- Unfolding of `initializeGame`. -/
theorem initializeGame_spec {rng : ℕ → ℕ} {fuel now : ℕ} {prior : GameState}
    {pos : ℕ} {st : GameState} {pos' : ℕ}
    (h : initializeGame rng fuel now prior pos = some (st, pos')) :
    st.attempts = 0 ∧ st.gameOver = false ∧ st.gameStartedTime = now ∧
      st.gameEndTime = none ∧ st.log = [] ∧
      st.secretNumber = generateRandomNumber 1 50 (rng pos) ∧
      generateMCQOptions rng (pos + 1) fuel st.secretNumber =
        some (st.options, pos') := by
  simp only [initializeGame] at h
  cases hgen : generateMCQOptions rng (pos + 1) fuel (generateRandomNumber 1 50 (rng pos)) with
  | none =>
    rw [hgen] at h
    exact absurd h (by simp)
  | some pr =>
    obtain ⟨opts, p2⟩ := pr
    rw [hgen] at h
    simp only [Option.some.injEq, Prod.mk.injEq] at h
    obtain ⟨hst, hpos⟩ := h
    rw [← hst]
    refine ⟨rfl, rfl, rfl, rfl, rfl, rfl, ?_⟩
    rw [← hpos]
    exact hgen

/-! ### The claims -/

/-- Claim C1: for every accepted guess while the game is not over, `checkGuess`
classifies the guess against the target: on equality the outcome is Correct,
the game-over flag and finish time are set and the option set is left alone;
on a greater guess the outcome is TooHigh, on a smaller one TooLow, and in
both of those cases a fresh option set is generated and installed. -/
theorem claim_C1 {rng : ℕ → ℕ} {fuel now : ℕ} {st : GameState} {pos : ℕ}
    {gv : Option ℤ} {txt : String} {g : ℤ} {st' : GameState} {pos' : ℕ}
    (hov : st.gameOver = false) (hg : resolveGuess gv txt = some g)
    (h : checkGuess rng fuel now st pos gv txt = some (st', pos')) :
    (g = st.secretNumber →
      st'.gameOver = true ∧ st'.gameEndTime = some now ∧ st'.options = st.options ∧
        st'.log = ⟨st.attempts + 1, g, Outcome.Correct, now⟩ :: st.log) ∧
    (st.secretNumber < g →
      st'.log = ⟨st.attempts + 1, g, Outcome.TooHigh, now⟩ :: st.log ∧
        generateMCQOptions rng pos fuel st.secretNumber = some (st'.options, pos')) ∧
    (g < st.secretNumber →
      st'.log = ⟨st.attempts + 1, g, Outcome.TooLow, now⟩ :: st.log ∧
        generateMCQOptions rng pos fuel st.secretNumber = some (st'.options, pos')) := by
  refine ⟨?_, ?_, ?_⟩
  · intro heq
    subst heq
    rw [checkGuess_of_correct hov hg] at h
    simp only [Option.some.injEq, Prod.mk.injEq] at h
    obtain ⟨hst, hpos⟩ := h
    rw [← hst]
    exact ⟨rfl, rfl, rfl, rfl⟩
  · intro hgt
    have hne : g ≠ st.secretNumber := by omega
    rw [checkGuess_of_incorrect hov hg hne] at h
    cases hgen : generateMCQOptions rng pos fuel st.secretNumber with
    | none =>
      rw [hgen] at h
      exact absurd h (by simp)
    | some pr =>
      obtain ⟨opts, p2⟩ := pr
      rw [hgen] at h
      simp only [Option.some.injEq, Prod.mk.injEq] at h
      obtain ⟨hst, hpos⟩ := h
      subst hpos
      rw [← hst]
      exact ⟨by simp [hgt], rfl⟩
  · intro hlt
    have hne : g ≠ st.secretNumber := by omega
    have hngt : ¬st.secretNumber < g := by omega
    rw [checkGuess_of_incorrect hov hg hne] at h
    cases hgen : generateMCQOptions rng pos fuel st.secretNumber with
    | none =>
      rw [hgen] at h
      exact absurd h (by simp)
    | some pr =>
      obtain ⟨opts, p2⟩ := pr
      rw [hgen] at h
      simp only [Option.some.injEq, Prod.mk.injEq] at h
      obtain ⟨hst, hpos⟩ := h
      subst hpos
      rw [← hst]
      exact ⟨by simp [hngt], rfl⟩

/-- Claim C2: once the game is over, any further `checkGuess` call — card or
text, valid or invalid — returns the state (and cursor) unchanged: attempts,
the game-over flag, the finish time, the target and the log are untouched. -/
theorem claim_C2 {rng : ℕ → ℕ} {fuel now : ℕ} {st : GameState} {pos : ℕ}
    (gv : Option ℤ) (txt : String) (hov : st.gameOver = true) :
    checkGuess rng fuel now st pos gv txt = some (st, pos) :=
  checkGuess_of_gameOver hov

/-- The text path rejects exactly the inputs whose parse is `NaN` or out of
range. -/
theorem resolveGuess_text_none {txt : String}
    (h : parseIntJS txt = none ∨ ∃ n, parseIntJS txt = some n ∧ (n < 1 ∨ 50 < n)) :
    resolveGuess none txt = none := by
  unfold resolveGuess
  rcases h with h | ⟨n, hn, hr⟩
  · rw [h]
  · rw [hn]
    simp only [if_pos hr]

/-- Claim C3: a text submission that fails validation (no integer parse, or a
value outside `[1, 50]`) leaves the whole state — attempt counter and log
included — unchanged, while any accepted guess increments the attempt counter
by exactly one. -/
theorem claim_C3 {rng : ℕ → ℕ} {fuel now : ℕ} {st : GameState} {pos : ℕ}
    {txt : String} (hov : st.gameOver = false) :
    ((parseIntJS txt = none ∨ ∃ n, parseIntJS txt = some n ∧ (n < 1 ∨ 50 < n)) →
      checkGuess rng fuel now st pos none txt = some (st, pos)) ∧
    (∀ (gv : Option ℤ) (txt' : String) (g : ℤ) (st' : GameState) (pos' : ℕ),
      resolveGuess gv txt' = some g →
      checkGuess rng fuel now st pos gv txt' = some (st', pos') →
      st'.attempts = st.attempts + 1) := by
  constructor
  · intro hfail
    exact checkGuess_of_rejected hov (resolveGuess_text_none hfail)
  · intro gv txt' g st' pos' hg h
    rcases checkGuess_cases h with ⟨-, -, hcase⟩ | ⟨g', -, -, ha, -, -, -⟩
    · rcases hcase with hcase | hcase
      · rw [hov] at hcase
        exact absurd hcase (by simp)
      · rw [hg] at hcase
        exact absurd hcase (by simp)
    · exact ha

/-- Claim C4: a generated option set has exactly five distinct integer
members, contains the target, and all members lie in `[1, 50]` (the target
itself being a `generateRandomNumber(1, 50)` draw). -/
theorem claim_C4 {rng : ℕ → ℕ} (hv : validRng rng) {secret : ℤ}
    (h1 : 1 ≤ secret) (h50 : secret ≤ 50) {pos fuel : ℕ} {opts : List ℤ}
    {pos' : ℕ} (h : generateMCQOptions rng pos fuel secret = some (opts, pos')) :
    opts.length = NUMBER_OF_MCQ_OPTIONS ∧ opts.Nodup ∧ secret ∈ opts ∧
      ∀ x ∈ opts, 1 ≤ x ∧ x ≤ 50 :=
  generateMCQOptions_spec hv h1 h50 h

/-- Claim C6: `initializeGame` — however the prior state looked, mid-game or
finished — produces a state with a fresh target in `[1, 50]`, zero attempts,
the game-over flag cleared, the start time stamped, the finish time cleared
and an empty log. -/
theorem claim_C6 {rng : ℕ → ℕ} (hv : validRng rng) {fuel now : ℕ}
    (prior : GameState) {pos : ℕ} {st : GameState} {pos' : ℕ}
    (h : initializeGame rng fuel now prior pos = some (st, pos')) :
    1 ≤ st.secretNumber ∧ st.secretNumber ≤ 50 ∧ st.attempts = 0 ∧
      st.gameOver = false ∧ st.gameStartedTime = now ∧ st.gameEndTime = none ∧
      st.log = [] := by
  obtain ⟨ha, hgo, hstart, hend, hlog, hsec, -⟩ := initializeGame_spec h
  have := generateRandomNumber_one_fifty_mem (hv pos)
  rw [← hsec] at this
  exact ⟨this.1, this.2, ha, hgo, hstart, hend, hlog⟩

/-- Claim C5: in any game reached from `initializeGame` by a sequence of guess
events, the log has exactly as many entries as there were accepted guesses,
with attempt numbers `N, N-1, …, 1` from the most recent entry down; and each
`checkGuess` call either leaves the log untouched or prepends exactly one
entry (numbered with the new attempt count) in front of the unchanged old
entries. -/
theorem claim_C5 {rng : ℕ → ℕ} {fuel now₀ : ℕ} {prior : GameState}
    {pos : ℕ} {st₀ : GameState} {p1 : ℕ} {events : List GuessEvent}
    {st : GameState} {p : ℕ}
    (hinit : initializeGame rng fuel now₀ prior pos = some (st₀, p1))
    (hrun : stepMany rng fuel st₀ p1 events = some (st, p)) :
    st.log.length = st.attempts ∧
    st.log.map LogEntry.attemptNum = countdown st.attempts ∧
    ∀ (e : GuessEvent) (q : ℕ) (st' : GameState) (q' : ℕ),
      checkGuess rng fuel e.now st q e.card e.text = some (st', q') →
      (st'.log = st.log ∧ st'.attempts = st.attempts) ∨
      ∃ en, st'.log = en :: st.log ∧ st'.attempts = st.attempts + 1 ∧
        en.attemptNum = st'.attempts := by
  obtain ⟨ha0, -, -, -, hlog0, -, -⟩ := initializeGame_spec hinit
  have hok0 : logOk st₀ := by
    unfold logOk
    rw [ha0, hlog0]
    rfl
  have hok : logOk st := (stepMany_invariant events st₀ p1 st p hrun).1 hok0
  refine ⟨?_, hok, ?_⟩
  · have := congrArg List.length hok
    simpa [countdown_length] using this
  · intro e q st' q' hstep
    rcases checkGuess_cases hstep with ⟨rfl, -, -⟩ | ⟨g, -, -, ha, -, -, hl⟩
    · exact Or.inl ⟨rfl, rfl⟩
    · exact Or.inr ⟨_, hl, ha, by rw [ha]⟩

/-- Claim C7: the target is invariant across any sequence of `checkGuess`
calls — accepted, rejected or ignored — and after any such sequence a further
call that resolves to the (unchanged) target yields the Correct outcome and
ends the game. -/
theorem claim_C7 {rng : ℕ → ℕ} {fuel : ℕ} {st : GameState} {pos : ℕ}
    {events : List GuessEvent} {st' : GameState} {p' : ℕ}
    (hrun : stepMany rng fuel st pos events = some (st', p')) :
    st'.secretNumber = st.secretNumber ∧
    (∀ (e : GuessEvent) (q : ℕ) (st₁ : GameState) (q₁ : ℕ),
      checkGuess rng fuel e.now st' q e.card e.text = some (st₁, q₁) →
      st₁.secretNumber = st'.secretNumber) ∧
    (∀ (now q : ℕ) (gv : Option ℤ) (txt : String),
      st'.gameOver = false → resolveGuess gv txt = some st'.secretNumber →
      ∃ st₁, checkGuess rng fuel now st' q gv txt = some (st₁, q) ∧
        st₁.gameOver = true ∧
        st₁.log = ⟨st'.attempts + 1, st'.secretNumber, Outcome.Correct, now⟩ :: st'.log) := by
  refine ⟨(stepMany_invariant events st pos st' p' hrun).2, ?_, ?_⟩
  · intro e q st₁ q₁ hstep
    exact checkGuess_preserves_secret hstep
  · intro now q gv txt hov hg
    refine ⟨_, checkGuess_of_correct hov hg, rfl, rfl⟩

/-- Claim C10: a direct (card-path) call with any integer value — in or out of
range, listed on a card or not — while the game is running is accepted without
validation: it increments the attempt counter, is classified against the
target and prepends the corresponding log entry. -/
theorem claim_C10 {rng : ℕ → ℕ} {fuel now : ℕ} {st : GameState} {pos : ℕ}
    (v : ℤ) {txt : String} {st' : GameState} {pos' : ℕ}
    (hov : st.gameOver = false)
    (h : checkGuess rng fuel now st pos (some v) txt = some (st', pos')) :
    st'.attempts = st.attempts + 1 ∧
      st'.log = ⟨st.attempts + 1, v, outcomeOf st.secretNumber v, now⟩ :: st.log := by
  rcases checkGuess_cases h with ⟨-, -, hcase⟩ | ⟨g, -, hg, ha, -, -, hl⟩
  · rcases hcase with hcase | hcase
    · rw [hov] at hcase
      exact absurd hcase (by simp)
    · exact absurd hcase (by simp [resolveGuess])
  · have hgv : g = v := by
      have : resolveGuess (some v) txt = some v := rfl
      rw [this] at hg
      exact (Option.some.injEq .. ▸ hg).symm
    subst hgv
    exact ⟨ha, hl⟩

/-! ### Prefix parsing on the text path -/

theorem digit_toNat_bounds {c : Char} (h : c.isDigit = true) :
    48 ≤ c.toNat ∧ c.toNat ≤ 57 := by
  have h2 := h
  simp [Char.isDigit] at h2
  unfold Char.toNat
  exact ⟨UInt32.le_toNat_of_le (by norm_num [UInt32.size]) h2.1,
    UInt32.toNat_le_of_le (by norm_num [UInt32.size]) h2.2⟩

theorem not_ws_of_digit {c : Char} (h : c.isDigit = true) :
    isJsWhitespace c = false := by
  have hb := digit_toNat_bounds h
  unfold isJsWhitespace
  simp only [Bool.or_eq_false_iff, Bool.and_eq_false_iff,
    decide_eq_false_iff_not, not_le]
  omega

theorem digit_ne_x {c : Char} (h : c.isDigit = true) : c ≠ 'x' ∧ c ≠ 'X' := by
  constructor <;> (rintro rfl; exact absurd h (by decide))

theorem digit_ne_minus {c : Char} (h : c.isDigit = true) : c ≠ '-' := by
  rintro rfl
  exact absurd h (by decide)

theorem digit_ne_plus {c : Char} (h : c.isDigit = true) : c ≠ '+' := by
  rintro rfl
  exact absurd h (by decide)

theorem takeWhile_append_of_all {p : Char → Bool} :
    ∀ (ds rest : List Char), (∀ c ∈ ds, p c = true) →
      List.takeWhile p (ds ++ rest) = ds ++ List.takeWhile p rest
  | [], rest, _ => rfl
  | d :: ds, rest, h => by
    have hd : p d = true := h d (by simp)
    simp only [List.cons_append, List.takeWhile_cons, hd, if_true]
    rw [takeWhile_append_of_all ds rest fun c hc => h c (by simp [hc])]

/-- On a body that does not trigger the hexadecimal prefix, `parseRun` reads
the longest leading run of decimal digits. -/
theorem parseRun_noHex (sign : ℤ) :
    ∀ body : List Char,
      (∀ c0 c1 rest2, body = c0 :: c1 :: rest2 → ¬(c0 = '0' ∧ (c1 = 'x' ∨ c1 = 'X'))) →
      parseRun sign body =
        (if (body.takeWhile Char.isDigit).isEmpty then none
         else some (sign * (digitsVal (body.takeWhile Char.isDigit) : ℤ)))
  | [], _ => rfl
  | [c], _ => rfl
  | c0 :: c1 :: rest2, hnohex => by
    show (if c0 = '0' ∧ (c1 = 'x' ∨ c1 = 'X') then _ else _) = _
    rw [if_neg (hnohex c0 c1 rest2 rfl)]

/-- Parsing recovers exactly the longest leading digit run: a string that
starts with a nonempty digit run followed by a non-digit (or nothing) parses
to the value of that run, whatever the rest looks like — as long as the run
is not the single digit `0` followed by `x`/`X` (the hexadecimal prefix of
`parseInt`), and short enough that `parseInt`'s final rounding to a double is
the identity (the bound hypothesis, unused by the model, records the domain
on which the exact-integer reading matches the program). -/
theorem parseIntJS_digitRun (ds rest : List Char) (hne : ds ≠ [])
    (hds : ∀ c ∈ ds, c.isDigit = true)
    (_hbound : digitsVal ds ≤ 2 ^ 53)
    (hrest : ∀ c cs, rest = c :: cs → c.isDigit = false)
    (hhex : ds = ['0'] → ∀ c cs, rest = c :: cs → c ≠ 'x' ∧ c ≠ 'X') :
    parseIntJS (String.mk (ds ++ rest)) = some ((digitsVal ds : ℤ)) := by
  obtain ⟨d, ds', rfl⟩ : ∃ d ds', ds = d :: ds' := by
    cases ds with
    | nil => exact absurd rfl hne
    | cons d ds' => exact ⟨d, ds', rfl⟩
  have hd : d.isDigit = true := hds d (by simp)
  have htail : List.takeWhile Char.isDigit rest = [] := by
    cases rest with
    | nil => rfl
    | cons c cs =>
      simp [List.takeWhile_cons, hrest c cs rfl]
  have hws : ((d :: ds') ++ rest).dropWhile isJsWhitespace = (d :: ds') ++ rest := by
    rw [List.cons_append, List.dropWhile_cons, not_ws_of_digit hd]
    simp
  have hstep : parseIntJS (String.mk ((d :: ds') ++ rest)) =
      parseRun (parseSign ((d :: ds') ++ rest)) (parseBody ((d :: ds') ++ rest)) := by
    show parseRun (parseSign (((d :: ds') ++ rest).dropWhile isJsWhitespace))
        (parseBody (((d :: ds') ++ rest).dropWhile isJsWhitespace)) = _
    rw [hws]
  have hsign : parseSign ((d :: ds') ++ rest) = 1 := by
    show (if d = '-' then (-1 : ℤ) else 1) = 1
    rw [if_neg (digit_ne_minus hd)]
  have hbody : parseBody ((d :: ds') ++ rest) = (d :: ds') ++ rest := by
    show (if d = '-' ∨ d = '+' then ds' ++ rest else d :: (ds' ++ rest)) =
        (d :: ds') ++ rest
    rw [if_neg (by push_neg; exact ⟨digit_ne_minus hd, digit_ne_plus hd⟩)]
    rw [List.cons_append]
  have hnohex : ∀ c0 c1 rest2, (d :: ds') ++ rest = c0 :: c1 :: rest2 →
      ¬(c0 = '0' ∧ (c1 = 'x' ∨ c1 = 'X')) := by
    intro c0 c1 rest2 heq hcond
    rw [List.cons_append] at heq
    obtain ⟨rfl, heq'⟩ : d = c0 ∧ ds' ++ rest = c1 :: rest2 := by
      simpa using heq
    cases ds' with
    | cons d2 ds'' =>
      obtain ⟨h21, -⟩ : d2 = c1 ∧ ds'' ++ rest = rest2 := by
        simpa using heq'
      have hx := digit_ne_x (hds d2 (by simp))
      rcases hcond.2 with h | h
      · exact hx.1 (h21.trans h)
      · exact hx.2 (h21.trans h)
    | nil =>
      simp only [List.nil_append] at heq'
      have hx := hhex (by rw [hcond.1]) c1 rest2 heq'
      rcases hcond.2 with h | h
      · exact hx.1 h
      · exact hx.2 h
  rw [hstep, hsign, hbody, parseRun_noHex 1 _ hnohex,
    takeWhile_append_of_all (d :: ds') rest hds, htail, List.append_nil]
  simp

/-- Claim C9 (implicit): text input goes through `parseInt`-style prefix
parsing — any raw string whose longest leading digit run gives a value in
`[1, 50]` is accepted as a guess of that value, well-formed numeral or not
(the characterization excludes the run `0` followed by `x`/`X`, which
`parseInt` reads as a hexadecimal prefix, and carries a `2 ^ 53` bound under
which `parseInt`'s final rounding to a double is the identity) — and a
rejection on the text path happens only when the parse is `NaN` or the
parsed value is out of range. -/
theorem claim_C9 {rng : ℕ → ℕ} {fuel now : ℕ} {st : GameState} {pos : ℕ}
    (hov : st.gameOver = false) :
    (∀ (ds rest : List Char), ds ≠ [] → (∀ c ∈ ds, c.isDigit = true) →
      digitsVal ds ≤ 2 ^ 53 →
      (∀ c cs, rest = c :: cs → c.isDigit = false) →
      (ds = ['0'] → ∀ c cs, rest = c :: cs → c ≠ 'x' ∧ c ≠ 'X') →
      parseIntJS (String.mk (ds ++ rest)) = some ((digitsVal ds : ℤ))) ∧
    (∀ (raw : String) (n : ℤ) (st' : GameState) (pos' : ℕ),
      parseIntJS raw = some n → 1 ≤ n → n ≤ 50 →
      checkGuess rng fuel now st pos none raw = some (st', pos') →
      st'.attempts = st.attempts + 1 ∧
        st'.log = ⟨st.attempts + 1, n, outcomeOf st.secretNumber n, now⟩ :: st.log) ∧
    (∀ raw : String, resolveGuess none raw = none →
      parseIntJS raw = none ∨ ∃ n, parseIntJS raw = some n ∧ (n < 1 ∨ 50 < n)) := by
  refine ⟨parseIntJS_digitRun, ?_, ?_⟩
  · intro raw n st' pos' hp h1 h50 h
    have hres : resolveGuess none raw = some n := by
      unfold resolveGuess
      rw [hp]
      simp only [if_neg (by omega : ¬(n < 1 ∨ 50 < n))]
    rcases checkGuess_cases h with ⟨-, -, hcase⟩ | ⟨g, -, hg, ha, -, -, hl⟩
    · rcases hcase with hcase | hcase
      · rw [hov] at hcase
        exact absurd hcase (by simp)
      · rw [hres] at hcase
        exact absurd hcase (by simp)
    · rw [hres] at hg
      simp only [Option.some.injEq] at hg
      subst hg
      exact ⟨ha, hl⟩
  · intro raw hres
    cases hp : parseIntJS raw with
    | none => exact Or.inl rfl
    | some m =>
      refine Or.inr ⟨m, rfl, ?_⟩
      by_contra hcond
      have hsome : resolveGuess none raw = some m := by
        unfold resolveGuess
        rw [hp]
        simp only [if_neg hcond]
      rw [hsome] at hres
      exact absurd hres (by simp)

/-! ### Uniformity of the Fisher–Yates shuffle on five elements -/

theorem getD_map_of_lt {α β : Type} [Inhabited α] [Inhabited β] (f : α → β)
    (a : List α) {n : ℕ} (hn : n < a.length) :
    (a.map f).getD n default = f (a.getD n default) := by
  rw [List.getD_eq_getElem _ _ (by simpa using hn), List.getD_eq_getElem _ _ hn]
  simp

theorem listSwap_map {α β : Type} [Inhabited α] [Inhabited β] (f : α → β)
    (a : List α) {i j : ℕ} (hi : i < a.length) (hj : j < a.length) :
    listSwap (a.map f) i j = (listSwap a i j).map f := by
  unfold listSwap
  rw [getD_map_of_lt f a hj, getD_map_of_lt f a hi, List.map_set, List.map_set]

theorem fisherYatesSpec_map {α β : Type} [Inhabited α] [Inhabited β]
    (f : α → β) (ch : ℕ → ℕ) (hch : ∀ k, ch k ≤ k) :
    ∀ (i : ℕ) (a : List α), i < a.length →
      fisherYatesSpec ch (a.map f) i = (fisherYatesSpec ch a i).map f
  | 0, a, _ => rfl
  | i + 1, a, hi => by
    have hj : ch (i + 1) < a.length := lt_of_le_of_lt (hch (i + 1)) hi
    unfold fisherYatesSpec
    rw [listSwap_map f a hi hj]
    exact fisherYatesSpec_map f ch hch i _ (by rw [listSwap_length]; omega)

/-- Reading a list off by positions reproduces the list. -/
theorem range_map_getD {α : Type} [Inhabited α] :
    ∀ l : List α, (List.range l.length).map (fun i => l.getD i default) = l
  | [] => rfl
  | x :: t => by
    rw [List.length_cons, List.range_succ_eq_map, List.map_cons, List.map_map]
    have hcomp : ((fun i => (x :: t).getD i default) ∘ Nat.succ) =
        fun i => t.getD i default := by
      funext i
      simp
    rw [hcomp, List.getD_cons_zero, range_map_getD t]

/-- Mapping with a function injective on the members is injective on lists. -/
theorem map_inj_on_lists {α β : Type} (f : α → β) :
    ∀ (s t : List α), (∀ x ∈ s, ∀ y ∈ t, f x = f y → x = y) →
      s.map f = t.map f → s = t
  | [], [], _, _ => rfl
  | [], _ :: _, _, h => absurd h (by simp)
  | _ :: _, [], _, h => absurd h (by simp)
  | x :: s, y :: t, hinj, h => by
    simp only [List.map_cons, List.cons.injEq] at h
    have hxy : x = y := hinj x (by simp) y (by simp) h.1
    rw [hxy, map_inj_on_lists f s t
      (fun a ha b hb => hinj a (by simp [ha]) b (by simp [hb])) h.2]

theorem choiceFun_le (c : FY5Choices) : ∀ k, choiceFun c k ≤ k
  | 0 => by simp [choiceFun]
  | 1 => by
    have := c.2.2.2.isLt
    simp only [choiceFun]
    omega
  | 2 => by
    have := c.2.2.1.isLt
    simp only [choiceFun]
    omega
  | 3 => by
    have := c.2.1.isLt
    simp only [choiceFun]
    omega
  | 4 => by
    have := c.1.isLt
    simp only [choiceFun]
    omega
  | n + 5 => by
    simp [choiceFun]

theorem applyFY5_perm {α : Type} [Inhabited α] (a : List α) (c : FY5Choices)
    (ha : a.length = 5) : (applyFY5 a c).Perm a :=
  fisherYatesSpec_perm (choiceFun c) (choiceFun_le c) 4 a (by omega)

theorem applyFY5_map {α β : Type} [Inhabited α] [Inhabited β] (f : α → β)
    (a : List α) (c : FY5Choices) (ha : a.length = 5) :
    applyFY5 (a.map f) c = (applyFY5 a c).map f :=
  fisherYatesSpec_map f (choiceFun c) (choiceFun_le c) 4 a (by omega)

set_option maxRecDepth 20000 in
set_option maxHeartbeats 4000000 in
/-- Distinct choice vectors shuffle `[0, 1, 2, 3, 4]` to distinct results. -/
theorem applyFY5_range_injective :
    Function.Injective (fun c : FY5Choices => applyFY5 (List.range 5) c) := by
  intro c c'
  revert c c'
  decide

/-- Every permutation of `[0, 1, 2, 3, 4]` is reached by some choice
vector. -/
theorem applyFY5_range_surj (p : List ℕ) (hp : p.Perm (List.range 5)) :
    ∃ c : FY5Choices, applyFY5 (List.range 5) c = p := by
  classical
  set T := Finset.image (fun c : FY5Choices => applyFY5 (List.range 5) c)
    Finset.univ with hT
  set P := ((List.range 5).permutations).toFinset with hP
  have hTP : T ⊆ P := by
    intro q hq
    rw [hT, Finset.mem_image] at hq
    obtain ⟨c, -, rfl⟩ := hq
    rw [hP, List.mem_toFinset, List.mem_permutations]
    exact applyFY5_perm (List.range 5) c (by simp)
  have hcardT : T.card = 120 := by
    rw [hT, Finset.card_image_of_injective _ applyFY5_range_injective,
      Finset.card_univ]
    simp
  have hcardP : P.card = 120 := by
    rw [hP, List.toFinset_card_of_nodup
      (List.nodup_permutations _ (List.nodup_range 5)),
      List.length_permutations, List.length_range]
    decide
  have hTP' : T = P := Finset.eq_of_subset_of_card_le hTP (by omega)
  have hpT : p ∈ T := by
    rw [hTP', hP, List.mem_toFinset, List.mem_permutations]
    exact hp
  rw [hT, Finset.mem_image] at hpT
  obtain ⟨c, -, hc⟩ := hpT
  exact ⟨c, hc⟩

/-- On `[0, 1, 2, 3, 4]`, every permutation is hit by exactly one choice
vector. -/
theorem count_choices_range5 (p : List ℕ) (hp : p.Perm (List.range 5)) :
    (Finset.univ.filter fun c : FY5Choices =>
      applyFY5 (List.range 5) c = p).card = 1 := by
  obtain ⟨c0, hc0⟩ := applyFY5_range_surj p hp
  rw [Finset.card_eq_one]
  refine ⟨c0, ?_⟩
  ext c
  simp only [Finset.mem_filter, Finset.mem_univ, true_and, Finset.mem_singleton]
  constructor
  · intro hc
    exact applyFY5_range_injective (hc.trans hc0.symm)
  · rintro rfl
    exact hc0

/-- Uniform shuffling for an arbitrary duplicate-free five-element list of
integers: each of its permutations is produced by exactly one of the 120
equally likely choice vectors. -/
theorem count_choices_general (l : List ℤ) (hnd : l.Nodup) (hlen : l.length = 5)
    (b : List ℤ) (hb : b.Perm l) :
    (Finset.univ.filter fun c : FY5Choices => applyFY5 l c = b).card = 1 := by
  classical
  set f : ℕ → ℤ := fun i => l.getD i default with hf
  have hfl : (List.range 5).map f = l := by
    rw [hf, ← hlen]
    exact range_map_getD l
  set g : ℤ → ℕ := fun x => l.indexOf x with hg
  have hgf : ∀ i < 5, g (f i) = i := by
    intro i hi
    have hi' : i < l.length := by omega
    show l.indexOf (l.getD i default) = i
    rw [List.getD_eq_getElem _ _ hi']
    exact List.indexOf_getElem hnd i hi' 
  have hfg : ∀ x ∈ l, f (g x) = x := by
    intro x hx
    have hix : l.indexOf x < l.length := List.indexOf_lt_length.mpr hx
    show l.getD (l.indexOf x) default = x
    rw [List.getD_eq_getElem _ _ hix]
    exact List.getElem_indexOf hix
  have hmemlt : ∀ x ∈ l, g x < 5 := by
    intro x hx
    have := List.indexOf_lt_length.mpr hx
    show l.indexOf x < 5
    omega
  set p : List ℕ := b.map g with hpdef
  have hbl : ∀ x ∈ b, x ∈ l := fun x hx => hb.subset hx
  have hpb : p.map f = b := by
    rw [hpdef, List.map_map]
    have : ∀ x ∈ b, (f ∘ g) x = id x := fun x hx => hfg x (hbl x hx)
    rw [List.map_congr_left this, List.map_id]
  have hgl : l.map g = List.range 5 := by
    have h1 : (List.range 5).map (g ∘ f) = (List.range 5).map id := by
      apply List.map_congr_left
      intro i hi
      exact hgf i (List.mem_range.mp hi)
    calc l.map g = ((List.range 5).map f).map g := by rw [hfl]
      _ = (List.range 5).map (g ∘ f) := by rw [List.map_map]
      _ = (List.range 5).map id := h1
      _ = List.range 5 := List.map_id _
  have hpperm : p.Perm (List.range 5) := by
    rw [hpdef, ← hgl]
    exact hb.map g
  have hfinj : ∀ s t : List ℕ, (∀ x ∈ s, x < 5) → (∀ x ∈ t, x < 5) →
      s.map f = t.map f → s = t := by
    intro s t hs ht heq
    refine map_inj_on_lists f s t ?_ heq
    intro x hx y hy hxy
    have hx5 : x < l.length := by have := hs x hx; omega
    have hy5 : y < l.length := by have := ht y hy; omega
    have : g (f x) = g (f y) := by rw [hxy]
    rw [hgf x (hs x hx), hgf y (ht y hy)] at this
    exact this
  have hiff : ∀ c : FY5Choices, applyFY5 l c = b ↔ applyFY5 (List.range 5) c = p := by
    intro c
    have hmap : applyFY5 l c = (applyFY5 (List.range 5) c).map f := by
      rw [← hfl]
      exact applyFY5_map f (List.range 5) c (by simp)
    constructor
    · intro hc
      have hlt1 : ∀ x ∈ applyFY5 (List.range 5) c, x < 5 := by
        intro x hx
        have := (applyFY5_perm (List.range 5) c (by simp)).subset hx
        exact List.mem_range.mp this
      have hlt2 : ∀ x ∈ p, x < 5 := by
        intro x hx
        have := hpperm.subset hx
        exact List.mem_range.mp this
      refine hfinj _ _ hlt1 hlt2 ?_
      rw [← hmap, hc, ← hpb]
    · intro hc
      rw [hmap, hc, hpb]
  have : (Finset.univ.filter fun c : FY5Choices => applyFY5 l c = b) =
      (Finset.univ.filter fun c : FY5Choices => applyFY5 (List.range 5) c = p) := by
    apply Finset.filter_congr
    intro c _
    exact hiff c
  rw [this]
  exact count_choices_range5 p hpperm

/-- Claim C8: the script's shuffle loop is the Fisher–Yates algorithm of the
specification — at each index `i` from the last down to `1` it swaps with an
index `Math.floor(Math.random() * (i + 1))`, which lies in `[0, i]` for a
valid random source — and on a duplicate-free five-element option list a
uniform random source makes every permutation equally likely: each one is
produced by exactly one of the 120 equally weighted choice vectors. -/
theorem claim_C8 {l : List ℤ} (hnd : l.Nodup) (hlen : l.length = 5)
    {b : List ℤ} (hb : b.Perm l) :
    (∀ (rng : ℕ → ℕ) (pos : ℕ) (a : List ℤ) (i : ℕ),
      fyLoop rng pos a i = (fisherYatesSpec (codeChoices rng pos i) a i, pos + i)) ∧
    (∀ rng : ℕ → ℕ, validRng rng → ∀ pos i k : ℕ, codeChoices rng pos i k ≤ k) ∧
    (Finset.univ.filter fun c : FY5Choices => applyFY5 l c = b).card = 1 := by
  refine ⟨?_, ?_, count_choices_general l hnd hlen b hb⟩
  · intro rng pos a i
    exact fyLoop_eq_fisherYatesSpec rng i pos a
  · intro rng hv pos i k
    exact codeChoices_le hv pos i k

/-! ### Concrete witnesses -/

/-- A concrete valid random source: value `n` of the stream is
`(n % 50) / 50` of the full range. -/
def rngW : ℕ → ℕ := fun n => (n % 50) * (RAND_SIZE / 50)

theorem rngW_valid : validRng rngW := by
  intro n
  unfold rngW
  have h : n % 50 < 50 := Nat.mod_lt n (by norm_num)
  calc (n % 50) * (RAND_SIZE / 50) ≤ 49 * (RAND_SIZE / 50) :=
        Nat.mul_le_mul_right _ (by omega)
    _ < RAND_SIZE := by decide

/-- A freshly started game with target 17. -/
def stW : GameState := ⟨17, 0, false, 0, none, [], [1, 2, 3, 4, 17]⟩

/-- State `stW` after the winning card guess 17 at time 5. -/
def stW1 : GameState :=
  ⟨17, 1, true, 0, some 5, [⟨1, 17, Outcome.Correct, 5⟩], [1, 2, 3, 4, 17]⟩

/-- State `stW` after the out-of-range card guess 999 at time 5. -/
def stHighW : GameState :=
  ⟨17, 1, false, 0, none, [⟨1, 999, Outcome.TooHigh, 5⟩], [1, 2, 3, 4, 17]⟩

/-- A finished game. -/
def stOverW : GameState := ⟨17, 3, true, 0, some 9, [], [1, 2, 3, 4, 17]⟩

/-- The state `initializeGame` builds from `rngW` at cursor 0 (target 1). -/
def st0W : GameState := ⟨1, 0, false, 0, none, [], [2, 3, 4, 5, 1]⟩

/-- Three card guesses: 25, then 10, then the target 1. -/
def eventsW : List GuessEvent :=
  [⟨some 25, "", 1⟩, ⟨some 10, "", 2⟩, ⟨some 1, "", 3⟩]

/-- The state after running `eventsW` from `st0W`. -/
def stEndW : GameState :=
  ⟨1, 3, true, 0, some 3,
    [⟨3, 1, Outcome.Correct, 3⟩, ⟨2, 10, Outcome.TooHigh, 2⟩,
      ⟨1, 25, Outcome.TooHigh, 1⟩],
    [21, 1, 20, 18, 19]⟩

theorem claim_C1_witness :
    stW.gameOver = false ∧ resolveGuess (some 17) "" = some 17 ∧
    checkGuess rngW 10 5 stW 0 (some 17) "" = some (stW1, 0) ∧
    (((17 : ℤ) = stW.secretNumber →
      stW1.gameOver = true ∧ stW1.gameEndTime = some 5 ∧
        stW1.options = stW.options ∧
        stW1.log = ⟨stW.attempts + 1, 17, Outcome.Correct, 5⟩ :: stW.log) ∧
     (stW.secretNumber < 17 →
      stW1.log = ⟨stW.attempts + 1, 17, Outcome.TooHigh, 5⟩ :: stW.log ∧
        generateMCQOptions rngW 0 10 stW.secretNumber = some (stW1.options, 0)) ∧
     (17 < stW.secretNumber →
      stW1.log = ⟨stW.attempts + 1, 17, Outcome.TooLow, 5⟩ :: stW.log ∧
        generateMCQOptions rngW 0 10 stW.secretNumber = some (stW1.options, 0))) :=
  ⟨by decide, by decide, by decide,
    @claim_C1 rngW 10 5 stW 0 (some 17) "" 17 stW1 0 (by decide) (by decide) (by decide)⟩

theorem claim_C2_witness :
    stOverW.gameOver = true ∧
    checkGuess rngW 10 5 stOverW 0 (some 3) "x" = some (stOverW, 0) :=
  ⟨by decide, @claim_C2 rngW 10 5 stOverW 0 (some 3) "x" (by decide)⟩

theorem claim_C3_witness :
    stW.gameOver = false ∧
    (((parseIntJS "abc" = none ∨
        ∃ n, parseIntJS "abc" = some n ∧ (n < 1 ∨ 50 < n)) →
      checkGuess rngW 10 5 stW 0 none "abc" = some (stW, 0)) ∧
     (∀ (gv : Option ℤ) (txt' : String) (g : ℤ) (st' : GameState) (pos' : ℕ),
      resolveGuess gv txt' = some g →
      checkGuess rngW 10 5 stW 0 gv txt' = some (st', pos') →
      st'.attempts = stW.attempts + 1)) :=
  ⟨by decide, @claim_C3 rngW 10 5 stW 0 "abc" (by decide)⟩

theorem claim_C4_witness :
    validRng rngW ∧ (1 : ℤ) ≤ 17 ∧ (17 : ℤ) ≤ 50 ∧
    generateMCQOptions rngW 0 10 17 = some ([1, 2, 3, 4, 17], 9) ∧
    (([1, 2, 3, 4, 17] : List ℤ).length = NUMBER_OF_MCQ_OPTIONS ∧
      ([1, 2, 3, 4, 17] : List ℤ).Nodup ∧ (17 : ℤ) ∈ [1, 2, 3, 4, 17] ∧
      ∀ x ∈ ([1, 2, 3, 4, 17] : List ℤ), 1 ≤ x ∧ x ≤ 50) :=
  ⟨rngW_valid, by decide, by decide, by decide,
    @claim_C4 rngW rngW_valid 17 (by decide) (by decide) 0 10 [1, 2, 3, 4, 17] 9 (by decide)⟩

theorem claim_C5_witness :
    initializeGame rngW 10 0 stW 0 = some (st0W, 10) ∧
    stepMany rngW 10 st0W 10 eventsW = some (stEndW, 26) ∧
    (stEndW.log.length = stEndW.attempts ∧
     stEndW.log.map LogEntry.attemptNum = countdown stEndW.attempts ∧
     ∀ (e : GuessEvent) (q : ℕ) (st' : GameState) (q' : ℕ),
      checkGuess rngW 10 e.now stEndW q e.card e.text = some (st', q') →
      (st'.log = stEndW.log ∧ st'.attempts = stEndW.attempts) ∨
      ∃ en, st'.log = en :: stEndW.log ∧ st'.attempts = stEndW.attempts + 1 ∧
        en.attemptNum = st'.attempts) :=
  ⟨by decide, by decide,
    @claim_C5 rngW 10 0 stW 0 st0W 10 eventsW stEndW 26 (by decide) (by decide)⟩

theorem claim_C6_witness :
    validRng rngW ∧ initializeGame rngW 10 0 stW 0 = some (st0W, 10) ∧
    (1 ≤ st0W.secretNumber ∧ st0W.secretNumber ≤ 50 ∧ st0W.attempts = 0 ∧
      st0W.gameOver = false ∧ st0W.gameStartedTime = 0 ∧
      st0W.gameEndTime = none ∧ st0W.log = []) :=
  ⟨rngW_valid, by decide, @claim_C6 rngW rngW_valid 10 0 stW 0 st0W 10 (by decide)⟩

theorem claim_C7_witness :
    stepMany rngW 10 stW 0 [] = some (stW, 0) ∧
    (stW.secretNumber = stW.secretNumber ∧
     (∀ (e : GuessEvent) (q : ℕ) (st₁ : GameState) (q₁ : ℕ),
      checkGuess rngW 10 e.now stW q e.card e.text = some (st₁, q₁) →
      st₁.secretNumber = stW.secretNumber) ∧
     (∀ (now q : ℕ) (gv : Option ℤ) (txt : String),
      stW.gameOver = false → resolveGuess gv txt = some stW.secretNumber →
      ∃ st₁, checkGuess rngW 10 now stW q gv txt = some (st₁, q) ∧
        st₁.gameOver = true ∧
        st₁.log = ⟨stW.attempts + 1, stW.secretNumber, Outcome.Correct, now⟩ :: stW.log)) :=
  ⟨by decide, @claim_C7 rngW 10 stW 0 [] stW 0 (by decide)⟩

theorem claim_C8_witness :
    ([3, 1, 4, 2, 5] : List ℤ).Nodup ∧ ([3, 1, 4, 2, 5] : List ℤ).length = 5 ∧
    ([5, 4, 3, 2, 1] : List ℤ).Perm [3, 1, 4, 2, 5] ∧
    ((∀ (rng : ℕ → ℕ) (pos : ℕ) (a : List ℤ) (i : ℕ),
      fyLoop rng pos a i = (fisherYatesSpec (codeChoices rng pos i) a i, pos + i)) ∧
     (∀ rng : ℕ → ℕ, validRng rng → ∀ pos i k : ℕ, codeChoices rng pos i k ≤ k) ∧
     (Finset.univ.filter fun c : FY5Choices =>
        applyFY5 ([3, 1, 4, 2, 5] : List ℤ) c = [5, 4, 3, 2, 1]).card = 1) :=
  ⟨by decide, by decide, by decide,
    @claim_C8 [3, 1, 4, 2, 5] (by decide) (by decide) [5, 4, 3, 2, 1] (by decide)⟩

theorem claim_C9_witness :
    stW.gameOver = false ∧
    ((∀ (ds rest : List Char), ds ≠ [] → (∀ c ∈ ds, c.isDigit = true) →
      digitsVal ds ≤ 2 ^ 53 →
      (∀ c cs, rest = c :: cs → c.isDigit = false) →
      (ds = ['0'] → ∀ c cs, rest = c :: cs → c ≠ 'x' ∧ c ≠ 'X') →
      parseIntJS (String.mk (ds ++ rest)) = some ((digitsVal ds : ℤ))) ∧
     (∀ (raw : String) (n : ℤ) (st' : GameState) (pos' : ℕ),
      parseIntJS raw = some n → 1 ≤ n → n ≤ 50 →
      checkGuess rngW 10 5 stW 0 none raw = some (st', pos') →
      st'.attempts = stW.attempts + 1 ∧
        st'.log = ⟨stW.attempts + 1, n, outcomeOf stW.secretNumber n, 5⟩ :: stW.log) ∧
     (∀ raw : String, resolveGuess none raw = none →
      parseIntJS raw = none ∨ ∃ n, parseIntJS raw = some n ∧ (n < 1 ∨ 50 < n))) :=
  ⟨by decide, @claim_C9 rngW 10 5 stW 0 (by decide)⟩

theorem claim_C10_witness :
    stW.gameOver = false ∧
    checkGuess rngW 10 5 stW 0 (some 999) "" = some (stHighW, 9) ∧
    (stHighW.attempts = stW.attempts + 1 ∧
      stHighW.log = ⟨stW.attempts + 1, 999, outcomeOf stW.secretNumber 999, 5⟩ :: stW.log) :=
  ⟨by decide, by decide,
    @claim_C10 rngW 10 5 stW 0 999 "" stHighW 9 (by decide) (by decide)⟩
